import Mathlib

/-!
Verification of the life-os-2026 core: a shallow embedding of
`scripts/daily_sync.py` (history upserter, step runner, consolidated row
builder) and `scripts/shows_metrics.py` (temporal resolver, deduplicator,
shows aggregator), with theorems settling the specification claims.

Python `dict` rows read from CSV files are modelled as association lists
`List (String × String)`; `dict.get(k, "")` / a missing key both yield `""`
(CSV cells are strings, and every consumer treats a missing key and an empty
value alike through `or` chains and `get` defaults).  Machine-level details
(file handles, logging) are abstracted; the record-level data flow is kept
exactly as in the source.
-/

/-- A CSV row as read by `csv.DictReader`: an association list of
column-name/value pairs.  Lookup takes the first binding, mirroring the
unique keys of a Python dict. -/
abbrev Row := List (String × String)

/-- `r.get(k, "")`: first value bound to `k`, or `""` when absent. -/
def rget (r : Row) (k : String) : String :=
  match r with
  | [] => ""
  | (k', v) :: rest => if k' = k then v else rget rest k

/-- The column names of a row, in order (`row.keys()`). -/
def keysOf (r : Row) : List String := r.map Prod.fst

/-- `{h: row.get(h, "") for h in header}` — re-projection of a row onto a
header (daily_sync.py lines 194, 200, 203). -/
def projRow (header : List String) (r : Row) : Row :=
  header.map (fun h => (h, rget r h))

/-- The history table: a header (CSV field names, in order) and its data
rows (daily_sync.py lines 174–186). -/
structure Table where
  header : List String
  rows : List Row
deriving DecidableEq

/-- Well-formedness of a CSV-backed table: every data row is keyed by
exactly the header's columns, which is what `csv.DictReader` yields for a
table serialized by `csv.DictWriter`. -/
def WFTable (t : Table) : Prop := ∀ r ∈ t.rows, keysOf r = t.header

instance : DecidablePred WFTable := fun t =>
  inferInstanceAs (Decidable (∀ r ∈ t.rows, keysOf r = t.header))

/-- Union header: existing columns in order, then the new row's columns not
already present, appended at the end (daily_sync.py lines 183–186). -/
def unionHeader (header : List String) (ks : List String) : List String :=
  ks.foldl (fun acc k => if k ∈ acc then acc else acc ++ [k]) header

/-- The upsert loop over existing rows (daily_sync.py lines 188–203): the
first row whose `date` equals `keyVal` is replaced in place by the new row
(projected onto the union header), later matches are dropped, non-matches
are re-projected; if no row matched, the new row is appended at the end. -/
def upsertRows (header : List String) (keyVal : String) (row : Row) :
    List Row → Bool → List Row
  | [], replaced => if replaced then [] else [projRow header row]
  | r :: rs, replaced =>
    if rget r "date" = keyVal then
      if replaced then upsertRows header keyVal row rs true
      else projRow header row :: upsertRows header keyVal row rs true
    else projRow header r :: upsertRows header keyVal row rs replaced

/-- `append_history_row`'s UPSERT by `date` (daily_sync.py lines 170–209):
read the existing table, widen the header with the new row's unseen
columns, replace/insert the row for the new row's `date`, rewrite. -/
def upsert (t : Table) (row : Row) : Table :=
  let header := unionHeader t.header (keysOf row)
  ⟨header, upsertRows header (rget row "date") row t.rows false⟩

/-- The table state when `history_daily.csv` does not exist yet
(daily_sync.py lines 174–181: no header, no rows). -/
def emptyTable : Table := ⟨[], []⟩

/-- "At most one row per `date`": all data rows carry pairwise distinct
`date` values. -/
def uniqueDates (rows : List Row) : Prop :=
  List.Pairwise (fun a b => rget a "date" ≠ rget b "date") rows

/-- Number of rows carrying a given `date` value. -/
def countDate (rows : List Row) (kv : String) : Nat :=
  (rows.filter (fun r => rget r "date" = kv)).length

/-- The columns of `ks` not already in `seen`, first occurrences only, in
order: the exact suffix the upsert appends to an existing header. -/
def newColsOf (seen : List String) : List String → List String
  | [] => []
  | k :: ks => if k ∈ seen then newColsOf seen ks else k :: newColsOf (k :: seen) ks

/-- Python truthiness of `a or b` for strings (and for `dict.get` results,
where a missing key gives `None`): the left value unless it is empty. -/
def pyOr (a b : String) : String := if a = "" then b else a

/-- Python `str.strip()`: drop ASCII whitespace from both ends (written on
the character list so that it evaluates by structural recursion). -/
def pyStrip (s : String) : String :=
  String.mk (((s.data.dropWhile Char.isWhitespace).reverse.dropWhile
    Char.isWhitespace).reverse)


/-- Outcome of attempting one orchestrated step, abstracting the OS level:
the prerequisite file may be missing, the subprocess may run and return an
exit code, or the invocation plumbing may throw. -/
inductive ExecOutcome
  | missing
  | ran (returncode : Int)
  | exn
deriving DecidableEq

/-- One entry of the `steps` list (daily_sync.py lines 214–219) together
with what its execution would do. -/
structure StepSpec where
  required : Bool
  outcome : ExecOutcome
deriving DecidableEq

/-- `status ∈ {ok, failed, skipped}` of a step result dict. -/
inductive StepStatus
  | ok
  | failed
  | skipped
deriving DecidableEq

/-- The fields of a `run_step` result dict that the main loop inspects:
`status`, and the optional `required` key (`none` models an absent key). -/
structure StepResult where
  status : StepStatus
  requiredFlag : Option Bool
deriving DecidableEq

/-- `run_step` (daily_sync.py lines 222–276): skipped when the prerequisite
is missing; `ok`/`failed` by exit code, adding `required: True` only for a
required non-zero exit; on an exception, `failed` with `required` set to
the step's flag. -/
def runStep (s : StepSpec) : StepResult :=
  match s.outcome with
  | .missing => ⟨.skipped, none⟩
  | .ran rc =>
    if rc = 0 then ⟨.ok, none⟩
    else ⟨.failed, if s.required then some true else none⟩
  | .exn => ⟨.failed, some s.required⟩

/-- The main sequencing loop (daily_sync.py lines 386–394): run steps in
order, collecting results; `break` with `failed_required = True` as soon as
a result has `status == "failed"` and a truthy `required` key. -/
def runSteps : List StepSpec → List StepResult × Bool
  | [] => ([], false)
  | s :: rest =>
    let r := runStep s
    if r.status = .failed ∧ r.requiredFlag = some true then ([r], true)
    else
      let p := runSteps rest
      (r :: p.1, p.2)

/-- `return 1 if failed_required else 0` (daily_sync.py line 430). -/
def exitCode (steps : List StepSpec) : Int :=
  if (runSteps steps).2 then 1 else 0

/-- Length of the executed prefix: everything up to and including the first
step that is `required` and fails, or all steps when none is. -/
def haltCount : List StepSpec → Nat
  | [] => 0
  | s :: rest =>
    if s.required = true ∧ (runStep s).status = .failed then 1 else haltCount rest + 1

/-- The consolidated daily row built by `append_history_row`
(daily_sync.py lines 90–168), given the six per-domain one-row summaries
(each `{}` when its file is absent).  Python `d.get(k) or d.get(k2) or ""`
chains are `pyOr` chains: a `None` (missing key) and an empty string are
both falsy, so each alias falls through exactly when the previous value is
missing or empty. -/
def buildHistoryRow (today : String) (year : Int)
    (fitness reading dateNight running shows spotify : Row) : Row :=
  [ ("date", today),
    ("year", toString year),
    ("classes_attended_ytd",
      pyOr (rget fitness "classes_attended_2026")
        (pyOr (rget fitness "classes_attended_ytd") "")),
    ("classes_goal", rget fitness "classes_goal"),
    ("classes_progress_pct", rget fitness "classes_progress_pct"),
    ("required_classes_per_week", rget fitness "required_classes_per_week"),
    ("rx_rate", rget fitness "rx_rate"),
    ("pr_count", rget fitness "pr_count"),
    ("nonfiction_read_ytd",
      pyOr (rget reading "nonfiction_read_ytd")
        (pyOr (rget reading "nonfiction_books_read") "")),
    ("nonfiction_goal",
      pyOr (rget reading "nonfiction_goal")
        (pyOr (rget reading "nonfiction_books_goal") "")),
    ("fiction_read_ytd",
      pyOr (rget reading "fiction_read_ytd")
        (pyOr (rget reading "fiction_books_read") "")),
    ("fiction_goal",
      pyOr (rget reading "fiction_goal")
        (pyOr (rget reading "fiction_books_goal") "")),
    ("weeks_with_date_night", rget dateNight "weeks_with_date_night"),
    ("weeks_observed", rget dateNight "weeks_observed"),
    ("date_night_goal_per_week", rget dateNight "date_night_goal_per_week"),
    ("date_night_completion_rate_pct", rget dateNight "completion_rate_pct"),
    ("running_miles_ytd",
      pyOr (rget running "running_miles_ytd")
        (pyOr (rget running "miles_ytd") "")),
    ("running_goal_miles",
      pyOr (rget running "running_goal_miles")
        (pyOr (rget running "miles_goal") "")),
    ("running_progress_pct", rget running "running_progress_pct"),
    ("denver_upcoming_show_count",
      pyOr (rget shows "denver_upcoming_show_count")
        (pyOr (rget shows "denver_events_upcoming_count") "")),
    ("next_show_date", rget shows "next_show_date"),
    ("next_show_title", rget shows "next_show_title"),
    ("next_show_venue", rget shows "next_show_venue"),
    ("next_show_url", rget shows "next_show_url"),
    ("unique_venues_count", rget shows "unique_venues_count"),
    ("spotify_minutes_ytd", rget spotify "spotify_minutes_ytd"),
    ("spotify_goal_minutes", rget spotify "spotify_goal_minutes"),
    ("spotify_progress_pct", rget spotify "spotify_progress_pct"),
    ("spotify_days_listened_ytd", rget spotify "spotify_days_listened_ytd"),
    ("spotify_unique_artists_ytd", rget spotify "spotify_unique_artists_ytd"),
    ("spotify_unique_tracks_ytd", rget spotify "spotify_unique_tracks_ytd"),
    ("spotify_top_artist_ytd", rget spotify "spotify_top_artist_ytd"),
    ("spotify_top_track_ytd", rget spotify "spotify_top_track_ytd") ]

/-- Days since 1970-01-01 of a proleptic-Gregorian civil date (the
`days_from_civil` algorithm used by CPython's datetime ordinal
arithmetic).  All `Int` divisions here are Euclidean and act on
non-negative operands for every valid calendar date. -/
def daysFromCivil (y m d : Int) : Int :=
  let y' := if m ≤ 2 then y - 1 else y
  let era : Int := y' / 400
  let yoe : Int := y' - era * 400
  let mp : Int := (m + 9) % 12
  let doy : Int := (153 * mp + 2) / 5 + d - 1
  let doe : Int := yoe * 365 + yoe / 4 - yoe / 100 + doy
  era * 146097 + doe - 719468

/-- Civil date (year, month, day) of a day count since 1970-01-01
(inverse of `daysFromCivil`, the `civil_from_days` algorithm). -/
def civilFromDays (z0 : Int) : Int × Int × Int :=
  let z := z0 + 719468
  let era : Int := z / 146097
  let doe : Int := z - era * 146097
  let yoe : Int := (doe - doe / 1460 + doe / 36524 - doe / 146096) / 365
  let y : Int := yoe + era * 400
  let doy : Int := doe - (365 * yoe + yoe / 4 - yoe / 100)
  let mp : Int := (5 * doy + 2) / 153
  let d : Int := doy - (153 * mp + 2) / 5 + 1
  let m : Int := if mp < 10 then mp + 3 else mp - 9
  (if m ≤ 2 then y + 1 else y, m, d)

/-- A naive (wall-clock) datetime: the field tuple of a Python `datetime`
without tzinfo. -/
structure NaiveDT where
  year : Int
  month : Int
  day : Int
  hour : Int
  minute : Int
  second : Int
deriving DecidableEq

/-- A Python `datetime` as used by shows_metrics.py: wall-clock fields plus
`utcoffset()` in minutes (`none` = naive, no tzinfo). -/
structure PyDateTime where
  wall : NaiveDT
  utcOffsetMinutes : Option Int
deriving DecidableEq

/-- Seconds since the epoch of a wall-clock tuple read as UTC. -/
def naiveToSecs (w : NaiveDT) : Int :=
  86400 * daysFromCivil w.year w.month w.day
    + 3600 * w.hour + 60 * w.minute + w.second

/-- Wall-clock tuple of an epoch second count read in UTC. -/
def secsToNaive (t : Int) : NaiveDT :=
  let c := civilFromDays (t / 86400)
  let sod := t % 86400
  ⟨c.1, c.2.1, c.2.2, sod / 3600, sod % 3600 / 60, sod % 60⟩

/-- Day of week of a day count, `0` = Sunday (1970-01-01 was a Thursday). -/
def dowOf (z : Int) : Int := (z + 4) % 7

/-- Day of month of the second Sunday in March of year `y` (US DST start,
2007+ rules, as in the IANA data backing `ZoneInfo("America/Denver")`). -/
def secondSundayMarch (y : Int) : Int :=
  1 + (7 - dowOf (daysFromCivil y 3 1)) % 7 + 7

/-- Day of month of the first Sunday in November of year `y` (US DST end). -/
def firstSundayNovember (y : Int) : Int :=
  1 + (7 - dowOf (daysFromCivil y 11 1)) % 7

/-- America/Denver UTC offset (minutes) attached to a naive wall-clock time
by `dt.replace(tzinfo=ZoneInfo("America/Denver"))`: MDT (−360) from the
second Sunday of March 03:00 to the first Sunday of November 02:00 local,
else MST (−420).  Gap and ambiguous walls follow PEP 495 `fold=0`: the
offset in effect before the transition. -/
def denverOffWall (w : NaiveDT) : Int :=
  if naiveToSecs ⟨w.year, 3, secondSundayMarch w.year, 3, 0, 0⟩ ≤ naiveToSecs w
      ∧ naiveToSecs w < naiveToSecs ⟨w.year, 11, firstSundayNovember w.year, 2, 0, 0⟩
  then -360 else -420

/-- America/Denver UTC offset (minutes) at an absolute instant `t` (epoch
seconds): MDT between the transitions at 09:00 UTC on the second Sunday of
March and 08:00 UTC on the first Sunday of November. -/
def denverOffUtc (t : Int) : Int :=
  let y := (civilFromDays (t / 86400)).1
  if naiveToSecs ⟨y, 3, secondSundayMarch y, 2, 0, 0⟩ + 7 * 3600 ≤ t
      ∧ t < naiveToSecs ⟨y, 11, firstSundayNovember y, 2, 0, 0⟩ + 6 * 3600
  then -360 else -420

/-- `dt.astimezone(DENVER_TZ)` for an offset-aware `dt`: resolve the
absolute instant, then re-render its wall clock in America/Denver. -/
def astimezoneDenver (w : NaiveDT) (offMin : Int) : PyDateTime :=
  let t := naiveToSecs w - 60 * offMin
  let offD := denverOffUtc t
  ⟨secsToNaive (t + 60 * offD), some offD⟩

/-- `_as_aware_denver` (shows_metrics.py lines 61–69): a naive datetime is
assumed to already be Denver local time (tzinfo attached, wall unchanged);
an aware one is converted to Denver. -/
def asAwareDenver (d : PyDateTime) : PyDateTime :=
  match d.utcOffsetMinutes with
  | none => ⟨d.wall, some (denverOffWall d.wall)⟩
  | some off => astimezoneDenver d.wall off

/-- The absolute instant (epoch seconds) an aware datetime denotes. -/
def instantOf (d : PyDateTime) : Int :=
  naiveToSecs d.wall - 60 * d.utcOffsetMinutes.getD 0

/-- `_utc_ts` (shows_metrics.py lines 72–77): the comparable UTC timestamp
of a parsed datetime, after resolving it to Denver. -/
def utcTs (d : PyDateTime) : Int := instantOf (asAwareDenver d)

/-- Numeric value of a decimal digit character, `none` otherwise. -/
def digitVal (c : Char) : Option Int :=
  if c.isDigit then some ((c.toNat : Int) - 48) else none

/-- Two-digit decimal read. -/
def read2 (a b : Char) : Option Int := do
  let x ← digitVal a
  let y ← digitVal b
  pure (10 * x + y)

/-- Four-digit decimal read. -/
def read4 (a b c d : Char) : Option Int := do
  let x ← read2 a b
  let y ← read2 c d
  pure (100 * x + y)

/-- Length in days of a month of the proleptic Gregorian calendar. -/
def daysInMonth (y m : Int) : Int :=
  if m = 4 ∨ m = 6 ∨ m = 9 ∨ m = 11 then 30
  else if m = 2 then
    (if (y % 4 = 0 ∧ y % 100 ≠ 0) ∨ y % 400 = 0 then 29 else 28)
  else 31

/-- Time-of-day (and optional `±HH:MM` offset) tail of an extended ISO
string, validated the way `datetime.fromisoformat` validates it. -/
def parseTimeTail : List Char → Option (Int × Int × Int × Option Int)
  | h1 :: h2 :: ':' :: m1 :: m2 :: ':' :: s1 :: s2 :: rest => do
    let hh ← read2 h1 h2
    let mm ← read2 m1 m2
    let ss ← read2 s1 s2
    if hh ≤ 23 ∧ mm ≤ 59 ∧ ss ≤ 59 then
      match rest with
      | [] => some (hh, mm, ss, none)
      | sgn :: o1 :: o2 :: ':' :: o3 :: o4 :: [] => do
        let oh ← read2 o1 o2
        let om ← read2 o3 o4
        if (sgn = '+' ∨ sgn = '-') ∧ oh ≤ 23 ∧ om ≤ 59 then
          some (hh, mm, ss, some ((if sgn = '-' then -1 else 1) * (60 * oh + om)))
        else none
      | _ => none
    else none
  | _ => none

/-- `datetime.fromisoformat` on the shapes the two feeds emit (see the
`_parse_dt` docstring): `YYYY-MM-DD`, `YYYY-MM-DDTHH:MM:SS` and the same
with an explicit `±HH:MM` offset; calendar-validated. -/
def parseIsoChars : List Char → Option PyDateTime
  | y1 :: y2 :: y3 :: y4 :: '-' :: mo1 :: mo2 :: '-' :: d1 :: d2 :: rest => do
    let y ← read4 y1 y2 y3 y4
    let mo ← read2 mo1 mo2
    let d ← read2 d1 d2
    if 1 ≤ mo ∧ mo ≤ 12 ∧ 1 ≤ d ∧ d ≤ daysInMonth y mo then
      match rest with
      | [] => some ⟨⟨y, mo, d, 0, 0, 0⟩, none⟩
      | 'T' :: tcs => do
        let (hh, mm, ss, off) ← parseTimeTail tcs
        pure ⟨⟨y, mo, d, hh, mm, ss⟩, off⟩
      | _ => none
    else none
  | _ => none

/-- The `strptime("%Y/%m/%d")` date-only fallback of `_parse_dt`. -/
def parseSlashDate : List Char → Option PyDateTime
  | y1 :: y2 :: y3 :: y4 :: '/' :: mo1 :: mo2 :: '/' :: d1 :: d2 :: [] => do
    let y ← read4 y1 y2 y3 y4
    let mo ← read2 mo1 mo2
    let d ← read2 d1 d2
    if 1 ≤ mo ∧ mo ≤ 12 ∧ 1 ≤ d ∧ d ≤ daysInMonth y mo then
      some ⟨⟨y, mo, d, 0, 0, 0⟩, none⟩
    else none
  | _ => none

/-- `_parse_dt` (shows_metrics.py lines 26–58): empty string is `None`;
strip; a trailing `Z` is rewritten to `+00:00`; then ISO parse, then the
date-only fallback formats (`%Y-%m-%d` is already ISO). -/
def parseDt (value : String) : Option PyDateTime :=
  if value = "" then none
  else
    let s := pyStrip value
    let cs := s.data
    let cs := if cs.getLast? = some 'Z'
      then cs.dropLast ++ ['+', '0', '0', ':', '0', '0'] else cs
    match parseIsoChars cs with
    | some dt => some dt
    | none => parseSlashDate cs

/-- 32-bit left rotation on a `Nat` below `2 ^ 32`. -/
def rotl32 (k n : Nat) : Nat := (n <<< k) % 4294967296 ||| n >>> (32 - k)

/-- SHA-1 round function. -/
def sha1F (i b c d : Nat) : Nat :=
  if i < 20 then b &&& c ||| (b ^^^ 4294967295) &&& d
  else if i < 40 then b ^^^ c ^^^ d
  else if i < 60 then b &&& c ||| b &&& d ||| c &&& d
  else b ^^^ c ^^^ d

/-- SHA-1 round constants. -/
def sha1K (i : Nat) : Nat :=
  if i < 20 then 1518500249
  else if i < 40 then 1859775393
  else if i < 60 then 2400959708
  else 3395469782

/-- Big-endian 32-bit words of a byte list. -/
def toWords : List Nat → List Nat
  | a :: b :: c :: d :: rest => (((a * 256 + b) * 256 + c) * 256 + d) :: toWords rest
  | _ => []

/-- SHA-1 message schedule: the 16 chunk words extended to 80. -/
def sha1Schedule (w16 : List Nat) : List Nat :=
  (List.range 80).foldl
    (fun acc i =>
      if i < 16 then acc ++ [w16.getD i 0]
      else acc ++ [rotl32 1 (acc.getD (i - 3) 0 ^^^ acc.getD (i - 8) 0
        ^^^ acc.getD (i - 14) 0 ^^^ acc.getD (i - 16) 0)]) []

/-- One SHA-1 round on the five-word working state. -/
def sha1Round (st : Nat × Nat × Nat × Nat × Nat) (iw : Nat × Nat) :
    Nat × Nat × Nat × Nat × Nat :=
  match st, iw with
  | (a, b, c, d, e), (i, w) =>
    ((rotl32 5 a + sha1F i b c d + e + sha1K i + w) % 4294967296,
      a, rotl32 30 b, c, d)

/-- SHA-1 compression of one 64-byte chunk. -/
def sha1Chunk (h : Nat × Nat × Nat × Nat × Nat) (chunk : List Nat) :
    Nat × Nat × Nat × Nat × Nat :=
  match h, (sha1Schedule (toWords chunk)).enum.foldl sha1Round h with
  | (h0, h1, h2, h3, h4), (a, b, c, d, e) =>
    ((h0 + a) % 4294967296, (h1 + b) % 4294967296, (h2 + c) % 4294967296,
      (h3 + d) % 4294967296, (h4 + e) % 4294967296)

/-- Big-endian 8-byte encoding of a bit length. -/
def be8 (n : Nat) : List Nat :=
  [n >>> 56 % 256, n >>> 48 % 256, n >>> 40 % 256, n >>> 32 % 256,
    n >>> 24 % 256, n >>> 16 % 256, n >>> 8 % 256, n % 256]

/-- SHA-1 padding: `0x80`, zeros to 56 mod 64, big-endian bit length. -/
def sha1Pad (msg : List Nat) : List Nat :=
  msg ++ 128 :: List.replicate ((119 - msg.length % 64) % 64) 0
    ++ be8 (msg.length * 8)

/-- A padded message split into 64-byte chunks. -/
def chunks64 (l : List Nat) : List (List Nat) :=
  if h : l = [] then [] else l.take 64 :: chunks64 (l.drop 64)
termination_by l.length
decreasing_by
  simp only [List.length_drop]
  exact Nat.sub_lt (List.length_pos.mpr h) (by decide)

/-- Lower-case hex rendering of a 32-bit word. -/
def hex8 (n : Nat) : String :=
  String.mk ((List.range 8).map
    (fun i =>
      let v := n >>> (28 - 4 * i) % 16
      if v < 10 then Char.ofNat (48 + v) else Char.ofNat (87 + v)))

/-- `hashlib.sha1(...).hexdigest()` over a byte sequence. -/
def sha1Hex (msg : List Nat) : String :=
  match (chunks64 (sha1Pad msg)).foldl sha1Chunk
      (1732584193, 4023233417, 2562383102, 271733878, 3285377520) with
  | (h0, h1, h2, h3, h4) => hex8 h0 ++ hex8 h1 ++ hex8 h2 ++ hex8 h3 ++ hex8 h4

/-- UTF-8 bytes of a string (`str.encode("utf-8")`). -/
def utf8Bytes (s : String) : List Nat := s.toUTF8.toList.map (fun b => b.toNat)

/-- `_norm` (shows_metrics.py lines 91–92): lower-case, collapse whitespace
runs to single spaces, trim (Python `" ".join(s.lower().split())`). -/
def normWs (s : String) : String :=
  String.intercalate " " ((s.toLower.split Char.isWhitespace).filter (fun t => t ≠ ""))

/-- `_dedupe_key` (shows_metrics.py lines 95–108): the stable cross-source
identity — the stripped `event_url` when non-empty, else a truncated SHA-1
of normalized title, normalized venue and the raw start string. -/
def dedupeKey (row : Row) : String :=
  let url := pyStrip (rget row "event_url")
  if url ≠ "" then "url:" ++ url
  else
    let base := normWs (rget row "title") ++ "|" ++ normWs (rget row "venue_name")
      ++ "|" ++ pyStrip (rget row "start_datetime")
    "sig:" ++ (sha1Hex (utf8Bytes base)).take 16

/-- The dedupe loop of `main` (shows_metrics.py lines 120–126) with its set
of already-seen keys made explicit: an insertion-ordered dict keeps the
first record per key, so `list(dedup.values())` is the subsequence of
first-per-key records. -/
def dedupeAux (seen : List String) : List Row → List Row
  | [] => []
  | r :: rs =>
    if dedupeKey r ∈ seen then dedupeAux seen rs
    else r :: dedupeAux (dedupeKey r :: seen) rs

/-- Cross-source de-duplication of the concatenated feeds. -/
def dedupe (rows : List Row) : List Row := dedupeAux [] rows

/-- `_read_csv` (shows_metrics.py lines 80–88) at the record level: an
absent file (`none`) yields no rows; otherwise every cell value is
stripped. -/
def readCsvRows : Option (List Row) → List Row
  | none => []
  | some rows => rows.map (fun r => r.map (fun p => (p.1, pyStrip p.2)))

/-- Keep-first de-duplication of a list (the effect of collecting into a
Python set, with a deterministic order of survivors). -/
def distinctAux {α : Type} [DecidableEq α] (seen : List α) : List α → List α
  | [] => []
  | a :: l => if a ∈ seen then distinctAux seen l else a :: distinctAux (a :: seen) l

/-- Keep-first distinct elements of a list. -/
def distinctList {α : Type} [DecidableEq α] (l : List α) : List α := distinctAux [] l

/-- Lexicographic strict order on character lists by code point — the
order Python uses to compare `str` values. -/
def charListLt : List Char → List Char → Bool
  | _, [] => false
  | [], _ :: _ => true
  | a :: as, b :: bs =>
    a.toNat < b.toNat || (a.toNat = b.toNat && charListLt as bs)

/-- Non-strict code-point order on strings. -/
def strLe (a b : String) : Bool := !(charListLt b.data a.data)

/-- `sorted(...)` on strings: ascending lexicographic (code-point) sort. -/
def sortStrings (l : List String) : List String :=
  List.insertionSort (fun a b => strLe a b = true) l

/-- shows_metrics.py line 161: the sorted, comma-joined set of distinct
non-empty stripped `source` tags of a record list. -/
def sourcesPresentOf (rows : List Row) : String :=
  String.intercalate ","
    (sortStrings (distinctList (rows.filterMap (fun r =>
      let s := pyStrip (rget r "source")
      if s = "" then none else some s))))

/-- The year filter of `main` (shows_metrics.py lines 128–139): parse each
record's `start_datetime` (unparseable records are skipped), resolve it to
Denver, keep records whose Denver-local year is the target, and pair each
with its comparable UTC timestamp. -/
def filteredTuples (rows : List Row) (year : Int) :
    List (Int × PyDateTime × Row) :=
  rows.filterMap (fun row =>
    match parseDt (rget row "start_datetime") with
    | none => none
    | some dtRaw =>
      let dtDenver := asAwareDenver dtRaw
      if dtDenver.wall.year = year then some (utcTs dtRaw, dtDenver, row)
      else none)

/-- `filtered.sort(key=lambda x: x[0])` (shows_metrics.py line 141):
CPython's sort is stable, and a stable sort by key is unique, so the
before-if-not-greater insertion sort denotes it exactly. -/
def sortedTuples (rows : List Row) (year : Int) :
    List (Int × PyDateTime × Row) :=
  List.insertionSort (fun a b => a.1 ≤ b.1) (filteredTuples rows year)

/-- Zero-padded decimal rendering of a non-negative `Int`. -/
def padInt (width : Nat) (n : Int) : String :=
  let s := toString n.natAbs
  String.mk (List.replicate (width - s.length) '0') ++ s

/-- `date().isoformat()`: `YYYY-MM-DD`. -/
def isoDateOf (w : NaiveDT) : String :=
  padInt 4 w.year ++ "-" ++ padInt 2 w.month ++ "-" ++ padInt 2 w.day

/-- `datetime.isoformat()` of a (possibly aware) datetime with whole
seconds: `YYYY-MM-DDTHH:MM:SS[±HH:MM]`. -/
def isoOf (d : PyDateTime) : String :=
  isoDateOf d.wall ++ "T" ++ padInt 2 d.wall.hour ++ ":" ++ padInt 2 d.wall.minute
    ++ ":" ++ padInt 2 d.wall.second
    ++ match d.utcOffsetMinutes with
      | none => ""
      | some o => (if o < 0 then "-" else "+")
        ++ padInt 2 ((o.natAbs : Int) / 60) ++ ":" ++ padInt 2 ((o.natAbs : Int) % 60)

/-- The one-row shows summary (shows_metrics.py lines 163–176). -/
structure ShowsSummary where
  year : String
  denver_upcoming_show_count : String
  next_show_date : String
  next_show_datetime : String
  next_show_title : String
  next_show_venue : String
  next_show_url : String
  unique_venues_count : String
  sources_present : String
  aeg_rows : String
  ticketmaster_rows : String
  combined_deduped_rows : String
deriving DecidableEq

/-- `main` of shows_metrics.py (lines 111–176) at the record level: read
both feeds, concatenate, de-duplicate (`rows` is rebound to the deduped
list at line 126), year-filter and sort, then assemble the summary row.
Note `sources_present` is computed at line 161 from the rebound `rows`,
i.e. from the *deduped* record set. -/
def showsSummary (aeg tm : Option (List Row)) (year : Int) : ShowsSummary :=
  let rowsAeg := readCsvRows aeg
  let rowsTm := readCsvRows tm
  let rows := dedupe (rowsAeg ++ rowsTm)
  let filtered := filteredTuples rows year
  let nxt := (sortedTuples rows year).head?
  { year := toString year
    denver_upcoming_show_count := toString filtered.length
    next_show_date := match nxt with
      | some (_, dtD, _) => isoDateOf dtD.wall
      | none => ""
    next_show_datetime := match nxt with
      | some (_, dtD, _) => isoOf dtD
      | none => ""
    next_show_title := match nxt with
      | some (_, _, r) => rget r "title"
      | none => ""
    next_show_venue := match nxt with
      | some (_, _, r) => rget r "venue_name"
      | none => ""
    next_show_url := match nxt with
      | some (_, _, r) => rget r "event_url"
      | none => ""
    unique_venues_count := toString (distinctList (filtered.filterMap (fun x =>
      let v := pyStrip (rget x.2.2 "venue_name")
      if v = "" then none else some v))).length
    sources_present := sourcesPresentOf rows
    aeg_rows := toString rowsAeg.length
    ticketmaster_rows := toString rowsTm.length
    combined_deduped_rows := toString rows.length }

/-- Specification-side reading of the Deduplicator contract: the first
record of the input is kept, every later record with the same `DedupeKey`
is discarded, and the rest is deduplicated in turn — i.e. the subsequence
of first occurrences per key, in input order. -/
def specDedupe (rows : List Row) : List Row :=
  match rows with
  | [] => []
  | r :: rs =>
    r :: specDedupe (rs.filter (fun x => dedupeKey x ≠ dedupeKey r))
termination_by rows.length
decreasing_by
  exact Nat.lt_succ_of_le (List.length_filter_le _ _)

/-- Specification-side reading of "the record with the earliest canonical
instant, ties broken by stable input order": the first element of the list
whose key is minimal. -/
def firstMinBy {α : Type} (f : α → Int) : List α → Option α
  | [] => none
  | a :: l =>
    match firstMinBy f l with
    | none => some a
    | some b => if f a ≤ f b then some a else some b

theorem rget_not_mem (r : Row) (k : String) (h : ¬ k ∈ keysOf r) : rget r k = "" := by
  induction r with
  | nil => rfl
  | cons p rest ih =>
    obtain ⟨k', v⟩ := p
    simp only [keysOf, List.map_cons, List.mem_cons] at h
    push_neg at h
    simp only [rget, if_neg (fun hk : k' = k => h.1 hk.symm)]
    exact ih (by simpa [keysOf] using h.2)

theorem rget_projRow (h : List String) (r : Row) (k : String) :
    rget (projRow h r) k = if k ∈ h then rget r k else "" := by
  induction h with
  | nil => simp [projRow, rget]
  | cons a t ih =>
    simp only [projRow, List.map_cons, rget] at *
    by_cases hak : a = k
    · subst hak; simp
    · rw [if_neg hak, ih]
      have hiff : k ∈ a :: t ↔ k ∈ t := by
        constructor
        · intro hm
          rcases List.mem_cons.mp hm with h1 | h1
          · exact absurd h1.symm hak
          · exact h1
        · exact List.mem_cons_of_mem a
      exact (if_congr hiff rfl rfl).symm

theorem keysOf_projRow (h : List String) (r : Row) : keysOf (projRow h r) = h := by
  unfold keysOf projRow
  rw [List.map_map]
  show List.map (fun a => a) h = h
  induction h with
  | nil => rfl
  | cons a t ih => rw [List.map_cons, ih]

theorem rget_projRow_of_subset (h : List String) (r : Row)
    (hsub : ∀ k ∈ keysOf r, k ∈ h) (k : String) :
    rget (projRow h r) k = rget r k := by
  rw [rget_projRow]
  by_cases hk : k ∈ h
  · rw [if_pos hk]
  · rw [if_neg hk, rget_not_mem r k (fun hm => hk (hsub k hm))]

theorem projRow_projRow (h : List String) (r : Row) :
    projRow h (projRow h r) = projRow h r := by
  show List.map (fun c => (c, rget (projRow h r) c)) h = projRow h r
  unfold projRow
  apply List.map_congr_left
  intro a ha
  have h1 : rget (projRow h r) a = rget r a := by
    rw [rget_projRow, if_pos ha]
  simp only [projRow] at h1
  rw [h1]

theorem mem_unionHeader (ks : List String) (h : List String) (k : String) :
    k ∈ unionHeader h ks ↔ k ∈ h ∨ k ∈ ks := by
  induction ks generalizing h with
  | nil => simp [unionHeader]
  | cons a t ih =>
    show k ∈ unionHeader (if a ∈ h then h else h ++ [a]) t ↔ _
    rw [ih]
    by_cases hah : a ∈ h
    · rw [if_pos hah]
      constructor
      · rintro (hk | hk)
        · exact Or.inl hk
        · exact Or.inr (List.mem_cons_of_mem a hk)
      · rintro (hk | hk)
        · exact Or.inl hk
        · rcases List.mem_cons.mp hk with hk | hk
          · exact Or.inl (hk ▸ hah)
          · exact Or.inr hk
    · rw [if_neg hah]
      simp only [List.mem_append, List.mem_singleton, List.mem_cons]
      tauto

theorem unionHeader_of_subset (ks : List String) (h : List String)
    (hsub : ∀ k ∈ ks, k ∈ h) : unionHeader h ks = h := by
  induction ks generalizing h with
  | nil => rfl
  | cons a t ih =>
    show unionHeader (if a ∈ h then h else h ++ [a]) t = h
    rw [if_pos (hsub a (List.mem_cons_self a t))]
    exact ih h (fun k hk => hsub k (List.mem_cons_of_mem a hk))

theorem newColsOf_congr (ks : List String) (s1 s2 : List String)
    (hm : ∀ x, x ∈ s1 ↔ x ∈ s2) : newColsOf s1 ks = newColsOf s2 ks := by
  induction ks generalizing s1 s2 with
  | nil => rfl
  | cons a t ih =>
    simp only [newColsOf]
    by_cases ha : a ∈ s1
    · rw [if_pos ha, if_pos ((hm a).mp ha)]
      exact ih s1 s2 hm
    · rw [if_neg ha, if_neg (fun hc => ha ((hm a).mpr hc))]
      rw [ih (a :: s1) (a :: s2) (fun x => by simp [List.mem_cons, hm x])]

theorem unionHeader_eq_append (ks : List String) (h : List String) :
    unionHeader h ks = h ++ newColsOf h ks := by
  induction ks generalizing h with
  | nil => simp [unionHeader, newColsOf]
  | cons a t ih =>
    show unionHeader (if a ∈ h then h else h ++ [a]) t = _
    simp only [newColsOf]
    by_cases ha : a ∈ h
    · rw [if_pos ha, if_pos ha, ih h]
    · rw [if_neg ha, if_neg ha, ih (h ++ [a]), List.append_assoc]
      congr 1
      · rw [List.singleton_append]
        congr 1
        exact newColsOf_congr t (h ++ [a]) (a :: h)
          (fun x => by simp [List.mem_append, List.mem_cons, or_comm])

theorem upsert_header_eq (t : Table) (row : Row) :
    (upsert t row).header = t.header ++ newColsOf t.header (keysOf row) := by
  show unionHeader t.header (keysOf row) = _
  exact unionHeader_eq_append (keysOf row) t.header

theorem foldl_upsert_header_prefix (rows : List Row) (t : Table) :
    t.header <+: (rows.foldl upsert t).header := by
  induction rows generalizing t with
  | nil => exact List.prefix_refl _
  | cons r rs ih =>
    rw [List.foldl_cons]
    refine List.IsPrefix.trans ?_ (ih (upsert t r))
    exact ⟨newColsOf t.header (keysOf r), (upsert_header_eq t r).symm⟩

/-- C3: the header after an upsert is the previous header with exactly the
new row's previously-unseen columns appended at the end, in the order they
occur in the new row; consequently, along any sequence of upserts every
earlier header stays a prefix of (so: retained, in position, inside) every
later one, and no column is ever removed. -/
theorem c3_header_monotone :
    (∀ (t : Table) (row : Row),
      (upsert t row).header = t.header ++ newColsOf t.header (keysOf row))
    ∧ (∀ (t : Table) (rows1 rows2 : List Row),
      (rows1.foldl upsert t).header <+: ((rows1 ++ rows2).foldl upsert t).header) := by
  refine ⟨upsert_header_eq, ?_⟩
  intro t rows1 rows2
  rw [List.foldl_append]
  exact foldl_upsert_header_prefix rows2 _

theorem keysOf_subset_unionHeader (t : Table) (row : Row) :
    ∀ k ∈ keysOf row, k ∈ unionHeader t.header (keysOf row) :=
  fun k hk => (mem_unionHeader (keysOf row) t.header k).mpr (Or.inr hk)

theorem header_subset_unionHeader (t : Table) (row : Row) :
    ∀ k ∈ t.header, k ∈ unionHeader t.header (keysOf row) :=
  fun k hk => (mem_unionHeader (keysOf row) t.header k).mpr (Or.inl hk)

theorem upsertRows_nil_false (H : List String) (kv : String) (row : Row) :
    upsertRows H kv row [] false = [projRow H row] := rfl

theorem upsertRows_nil_true (H : List String) (kv : String) (row : Row) :
    upsertRows H kv row [] true = [] := rfl

theorem upsertRows_cons_match_false (H : List String) (kv : String) (row r : Row)
    (rs : List Row) (hm : rget r "date" = kv) :
    upsertRows H kv row (r :: rs) false
      = projRow H row :: upsertRows H kv row rs true := by
  simp [upsertRows, hm]

theorem upsertRows_cons_match_true (H : List String) (kv : String) (row r : Row)
    (rs : List Row) (hm : rget r "date" = kv) :
    upsertRows H kv row (r :: rs) true = upsertRows H kv row rs true := by
  simp [upsertRows, hm]

theorem upsertRows_cons_nomatch (H : List String) (kv : String) (row r : Row)
    (rs : List Row) (b : Bool) (hm : ¬ rget r "date" = kv) :
    upsertRows H kv row (r :: rs) b
      = projRow H r :: upsertRows H kv row rs b := by
  simp [upsertRows, hm]

theorem upsertRows_idem (H : List String) (row : Row)
    (hrow : ∀ k ∈ keysOf row, k ∈ H) :
    ∀ (rs : List Row) (b : Bool), (∀ r ∈ rs, ∀ k ∈ keysOf r, k ∈ H) →
      upsertRows H (rget row "date") row
          (upsertRows H (rget row "date") row rs b) b
        = upsertRows H (rget row "date") row rs b := by
  have hnewdate : rget (projRow H row) "date" = rget row "date" :=
    rget_projRow_of_subset H row hrow "date"
  intro rs
  induction rs with
  | nil =>
    intro b _
    cases b with
    | true => rfl
    | false =>
      rw [upsertRows_nil_false, upsertRows_cons_match_false _ _ _ _ _ hnewdate,
        upsertRows_nil_true]
  | cons r rest ih =>
    intro b hks
    have hkr : ∀ k ∈ keysOf r, k ∈ H := hks r (List.mem_cons_self r rest)
    have hkrest : ∀ x ∈ rest, ∀ k ∈ keysOf x, k ∈ H :=
      fun x hx => hks x (List.mem_cons_of_mem r hx)
    by_cases hm : rget r "date" = rget row "date"
    · cases b with
      | false =>
        rw [upsertRows_cons_match_false _ _ _ _ _ hm,
          upsertRows_cons_match_false _ _ _ _ _ hnewdate, ih true hkrest]
      | true =>
        rw [upsertRows_cons_match_true _ _ _ _ _ hm]
        exact ih true hkrest
    · have hpd : rget (projRow H r) "date" = rget r "date" :=
        rget_projRow_of_subset H r hkr "date"
      rw [upsertRows_cons_nomatch _ _ _ _ _ _ hm,
        upsertRows_cons_nomatch _ _ _ _ _ _ (hpd ▸ hm), projRow_projRow,
        ih b hkrest]

/-- C2: upserting an identical new row for the same `date` twice yields a
table (header and ordered row set) identical to upserting it once, for any
well-formed existing history table. -/
theorem c2_upsert_idempotent (t : Table) (row : Row) (hwf : WFTable t) :
    upsert (upsert t row) row = upsert t row := by
  have hH : unionHeader (unionHeader t.header (keysOf row)) (keysOf row)
      = unionHeader t.header (keysOf row) :=
    unionHeader_of_subset _ _ (keysOf_subset_unionHeader t row)
  show Table.mk
      (unionHeader (unionHeader t.header (keysOf row)) (keysOf row))
      (upsertRows (unionHeader (unionHeader t.header (keysOf row)) (keysOf row))
        (rget row "date") row
        (upsertRows (unionHeader t.header (keysOf row)) (rget row "date") row t.rows false)
        false)
    = Table.mk (unionHeader t.header (keysOf row))
      (upsertRows (unionHeader t.header (keysOf row)) (rget row "date") row t.rows false)
  rw [hH]
  congr 1
  exact upsertRows_idem _ row (keysOf_subset_unionHeader t row) t.rows false
    (fun r hr k hk => header_subset_unionHeader t row k ((hwf r hr) ▸ hk))

/-- Witness for C2 at a concrete one-row history table and a same-date row
carrying a new column. -/
theorem c2_upsert_idempotent_witness :
    upsert (upsert ⟨["date", "x"], [[("date", "2026-01-01"), ("x", "1")]]⟩
        [("date", "2026-01-01"), ("y", "2")])
      [("date", "2026-01-01"), ("y", "2")]
    = upsert ⟨["date", "x"], [[("date", "2026-01-01"), ("x", "1")]]⟩
        [("date", "2026-01-01"), ("y", "2")] :=
  c2_upsert_idempotent _ _ (by decide)

theorem upsertRows_true_eq (H : List String) (kv : String) (row : Row)
    (rs : List Row) :
    upsertRows H kv row rs true
      = (rs.filter (fun r => rget r "date" ≠ kv)).map (projRow H) := by
  induction rs with
  | nil => rfl
  | cons r rest ih =>
    by_cases hm : rget r "date" = kv
    · rw [upsertRows_cons_match_true _ _ _ _ _ hm, ih, List.filter_cons]
      simp [hm]
    · rw [upsertRows_cons_nomatch _ _ _ _ _ _ hm, ih, List.filter_cons]
      simp [hm]

theorem upsertRows_prefix_nomatch (H : List String) (kv : String) (row : Row)
    (pre rest : List Row) (hpre : ∀ r ∈ pre, rget r "date" ≠ kv) :
    upsertRows H kv row (pre ++ rest) false
      = pre.map (projRow H) ++ upsertRows H kv row rest false := by
  induction pre with
  | nil => rfl
  | cons p ps ih =>
    rw [List.cons_append,
      upsertRows_cons_nomatch _ _ _ _ _ _ (hpre p (List.mem_cons_self p ps)),
      ih (fun r hr => hpre r (List.mem_cons_of_mem p hr)), List.map_cons,
      List.cons_append]

theorem countDate_nil (kv : String) : countDate [] kv = 0 := rfl

theorem countDate_cons (x : Row) (rows : List Row) (kv : String) :
    countDate (x :: rows) kv
      = (if rget x "date" = kv then 1 else 0) + countDate rows kv := by
  by_cases hm : rget x "date" = kv <;> simp [countDate, List.filter_cons, hm] <;> omega

theorem countDate_upsertRows (H : List String) (row : Row)
    (hrow : ∀ k ∈ keysOf row, k ∈ H) :
    ∀ (rs : List Row) (b : Bool), (∀ r ∈ rs, ∀ k ∈ keysOf r, k ∈ H) →
      countDate (upsertRows H (rget row "date") row rs b) (rget row "date")
        = if b then 0 else 1 := by
  have hnewdate : rget (projRow H row) "date" = rget row "date" :=
    rget_projRow_of_subset H row hrow "date"
  intro rs
  induction rs with
  | nil =>
    intro b _
    cases b with
    | true => rfl
    | false =>
      rw [upsertRows_nil_false, countDate_cons, hnewdate, if_pos rfl, countDate_nil]
      simp
  | cons r rest ih =>
    intro b hks
    have hkr : ∀ k ∈ keysOf r, k ∈ H := hks r (List.mem_cons_self r rest)
    have hkrest : ∀ x ∈ rest, ∀ k ∈ keysOf x, k ∈ H :=
      fun x hx => hks x (List.mem_cons_of_mem r hx)
    by_cases hm : rget r "date" = rget row "date"
    · cases b with
      | false =>
        rw [upsertRows_cons_match_false _ _ _ _ _ hm, countDate_cons, hnewdate,
          if_pos rfl, ih true hkrest]
        simp
      | true =>
        rw [upsertRows_cons_match_true _ _ _ _ _ hm]
        exact ih true hkrest
    · have hpd : rget (projRow H r) "date" = rget r "date" :=
        rget_projRow_of_subset H r hkr "date"
      rw [upsertRows_cons_nomatch _ _ _ _ _ _ hm, countDate_cons, hpd, if_neg hm,
        ih b hkrest, Nat.zero_add]

theorem mem_upsertRows (H : List String) (kv : String) (row : Row) :
    ∀ (rs : List Row) (b : Bool) (y : Row), y ∈ upsertRows H kv row rs b →
      y = projRow H row ∨ ∃ r ∈ rs, y = projRow H r := by
  intro rs
  induction rs with
  | nil =>
    intro b y hy
    cases b with
    | true => simp [upsertRows_nil_true] at hy
    | false =>
      rw [upsertRows_nil_false] at hy
      exact Or.inl (List.mem_singleton.mp hy)
  | cons r rest ih =>
    intro b y hy
    by_cases hm : rget r "date" = kv
    · cases b with
      | false =>
        rw [upsertRows_cons_match_false _ _ _ _ _ hm] at hy
        rcases List.mem_cons.mp hy with h | h
        · exact Or.inl h
        · rcases ih true y h with h1 | ⟨x, hx, h1⟩
          · exact Or.inl h1
          · exact Or.inr ⟨x, List.mem_cons_of_mem r hx, h1⟩
      | true =>
        rw [upsertRows_cons_match_true _ _ _ _ _ hm] at hy
        rcases ih true y hy with h1 | ⟨x, hx, h1⟩
        · exact Or.inl h1
        · exact Or.inr ⟨x, List.mem_cons_of_mem r hx, h1⟩
    · rw [upsertRows_cons_nomatch _ _ _ _ _ _ hm] at hy
      rcases List.mem_cons.mp hy with h | h
      · exact Or.inr ⟨r, List.mem_cons_self r rest, h⟩
      · rcases ih b y h with h1 | ⟨x, hx, h1⟩
        · exact Or.inl h1
        · exact Or.inr ⟨x, List.mem_cons_of_mem r hx, h1⟩

theorem wf_upsert (t : Table) (row : Row) : WFTable (upsert t row) := by
  intro y hy
  rcases mem_upsertRows _ _ _ t.rows false y hy with h | ⟨r, _, h⟩ <;>
    rw [h, keysOf_projRow] <;> rfl

theorem uniqueDates_upsertRows (H : List String) (row : Row)
    (hrow : ∀ k ∈ keysOf row, k ∈ H) :
    ∀ rs : List Row, (∀ r ∈ rs, ∀ k ∈ keysOf r, k ∈ H) → uniqueDates rs →
      uniqueDates (upsertRows H (rget row "date") row rs false) := by
  have hnewdate : rget (projRow H row) "date" = rget row "date" :=
    rget_projRow_of_subset H row hrow "date"
  intro rs
  induction rs with
  | nil =>
    intro _ _
    rw [upsertRows_nil_false]
    exact List.pairwise_singleton _ _
  | cons r rest ih =>
    intro hks hp
    have hkr : ∀ k ∈ keysOf r, k ∈ H := hks r (List.mem_cons_self r rest)
    have hkrest : ∀ x ∈ rest, ∀ k ∈ keysOf x, k ∈ H :=
      fun x hx => hks x (List.mem_cons_of_mem r hx)
    have hhead : ∀ b ∈ rest, rget r "date" ≠ rget b "date" :=
      (List.pairwise_cons.mp hp).1
    have hprest : uniqueDates rest := (List.pairwise_cons.mp hp).2
    by_cases hm : rget r "date" = rget row "date"
    · rw [upsertRows_cons_match_false _ _ _ _ _ hm, upsertRows_true_eq]
      refine List.pairwise_cons.mpr ⟨?_, ?_⟩
      · intro y hy
        obtain ⟨r', hr', rfl⟩ := List.mem_map.mp hy
        have hr'mem : r' ∈ rest := List.mem_of_mem_filter hr'
        have hr'date : rget r' "date" ≠ rget row "date" := by
          have := List.of_mem_filter hr'
          simpa using this
        rw [hnewdate, rget_projRow_of_subset H r' (hkrest r' hr'mem)]
        exact fun h => hr'date h.symm
      · refine List.pairwise_map.mpr ?_
        refine List.Pairwise.imp_of_mem ?_ (List.Pairwise.filter _ hprest)
        intro a b ha hb hab
        have hamem : a ∈ rest := List.mem_of_mem_filter ha
        have hbmem : b ∈ rest := List.mem_of_mem_filter hb
        rw [rget_projRow_of_subset H a (hkrest a hamem),
          rget_projRow_of_subset H b (hkrest b hbmem)]
        exact hab
    · rw [upsertRows_cons_nomatch _ _ _ _ _ _ hm]
      refine List.pairwise_cons.mpr ⟨?_, ih hkrest hprest⟩
      intro y hy
      have hpd : rget (projRow H r) "date" = rget r "date" :=
        rget_projRow_of_subset H r hkr "date"
      rcases mem_upsertRows _ _ _ rest false y hy with h | ⟨x, hx, h⟩
      · rw [h, hpd, hnewdate]
        exact hm
      · rw [h, hpd, rget_projRow_of_subset H x (hkrest x hx)]
        exact hhead x hx

theorem uniqueDates_upsert (t : Table) (row : Row) (hwf : WFTable t)
    (hu : uniqueDates t.rows) : uniqueDates (upsert t row).rows :=
  uniqueDates_upsertRows _ row (keysOf_subset_unionHeader t row) t.rows
    (fun r hr k hk => header_subset_unionHeader t row k ((hwf r hr) ▸ hk)) hu

theorem uniqueDates_foldl_aux (rows : List Row) :
    ∀ t : Table, WFTable t → uniqueDates t.rows →
      WFTable (rows.foldl upsert t) ∧ uniqueDates (rows.foldl upsert t).rows := by
  induction rows with
  | nil => exact fun t h1 h2 => ⟨h1, h2⟩
  | cons r rs ih =>
    intro t h1 h2
    rw [List.foldl_cons]
    exact ih (upsert t r) (wf_upsert t r) (uniqueDates_upsert t r h1 h2)

/-- C8: the upsert is total and self-healing on a table corrupted with
duplicate `date` rows — the first matching row is replaced in place at its
position, the extra matches are dropped, the result has exactly one row
with the new row's `date`, and every table reachable by upserts from the
empty table satisfies "at most one row per date". -/
theorem c8_upsert_self_heal :
    (∀ (t : Table) (row : Row), WFTable t →
      countDate (upsert t row).rows (rget row "date") = 1)
    ∧ (∀ (t : Table) (row : Row) (pre : List Row) (mid : Row) (post : List Row),
        t.rows = pre ++ mid :: post →
        (∀ r ∈ pre, rget r "date" ≠ rget row "date") →
        rget mid "date" = rget row "date" →
        (upsert t row).rows
          = pre.map (projRow (upsert t row).header)
            ++ projRow (upsert t row).header row
              :: (post.filter (fun r => rget r "date" ≠ rget row "date")).map
                (projRow (upsert t row).header))
    ∧ (∀ rowsList : List Row,
        uniqueDates ((rowsList.foldl upsert emptyTable).rows)) := by
  refine ⟨?_, ?_, ?_⟩
  · intro t row hwf
    have h := countDate_upsertRows (unionHeader t.header (keysOf row)) row
      (keysOf_subset_unionHeader t row) t.rows false
      (fun r hr k hk => header_subset_unionHeader t row k ((hwf r hr) ▸ hk))
    simpa using h
  · intro t row pre mid post ht hpre hmid
    show upsertRows (unionHeader t.header (keysOf row)) (rget row "date") row
        t.rows false = _
    rw [ht, upsertRows_prefix_nomatch _ _ _ _ _ hpre,
      upsertRows_cons_match_false _ _ _ _ _ hmid, upsertRows_true_eq]
    rfl
  · intro rowsList
    exact (uniqueDates_foldl_aux rowsList emptyTable (by intro r hr; cases hr)
      (List.Pairwise.nil)).2

/-- Concrete data for the C8 witness: a history table corrupted with two
rows for 2026-01-01. -/
def c8Mid : Row := [("date", "2026-01-01"), ("x", "1")]

/-- The rows after the first 2026-01-01 match in the C8 witness table. -/
def c8Post : List Row :=
  [[("date", "2026-01-01"), ("x", "2")], [("date", "2026-01-02"), ("x", "3")]]

/-- The corrupted table of the C8 witness. -/
def c8T : Table := ⟨["date", "x"], c8Mid :: c8Post⟩

/-- The new row upserted in the C8 witness. -/
def c8Row : Row := [("date", "2026-01-01"), ("x", "9")]

/-- Witness for C8 at a concrete corrupted table: the upsert leaves exactly
one 2026-01-01 row, replacing the first match in place and dropping the
duplicate. -/
theorem c8_upsert_self_heal_witness :
    countDate (upsert c8T c8Row).rows (rget c8Row "date") = 1
    ∧ (upsert c8T c8Row).rows
      = ([] : List Row).map (projRow (upsert c8T c8Row).header)
        ++ projRow (upsert c8T c8Row).header c8Row
          :: (c8Post.filter (fun r => rget r "date" ≠ rget c8Row "date")).map
            (projRow (upsert c8T c8Row).header) :=
  ⟨c8_upsert_self_heal.1 c8T c8Row (by decide),
    c8_upsert_self_heal.2.1 c8T c8Row [] c8Mid c8Post rfl
      (by intro r hr; cases hr) (by decide)⟩

theorem pyOr_chain (p f : String) :
    pyOr p (pyOr f "") = if p = "" then f else p := by
  unfold pyOr
  by_cases hp : p = "" <;> by_cases hf : f = "" <;> simp [hp, hf]

theorem pyOr_chain_empty_iff (p f : String) :
    pyOr p (pyOr f "") = "" ↔ p = "" ∧ f = "" := by
  rw [pyOr_chain]
  by_cases hp : p = "" <;> simp [hp]

/-- C10: in the consolidated history row, an aliased metric resolves to its
fallback whenever the primary column is missing *or present but empty* (a
present-but-empty primary does not shadow the fallback), and it is empty
exactly when every alias in the chain is missing or empty — shown for the
classes-attended, nonfiction-read, running-miles and show-count chains. -/
theorem c10_alias_fallback (today : String) (year : Int)
    (fitness reading dateNight running shows spotify : Row) :
    (rget (buildHistoryRow today year fitness reading dateNight running shows spotify)
        "classes_attended_ytd"
      = if rget fitness "classes_attended_2026" = ""
        then rget fitness "classes_attended_ytd"
        else rget fitness "classes_attended_2026")
    ∧ (rget (buildHistoryRow today year fitness reading dateNight running shows spotify)
        "classes_attended_ytd" = ""
      ↔ rget fitness "classes_attended_2026" = ""
        ∧ rget fitness "classes_attended_ytd" = "")
    ∧ (rget (buildHistoryRow today year fitness reading dateNight running shows spotify)
        "nonfiction_read_ytd"
      = if rget reading "nonfiction_read_ytd" = ""
        then rget reading "nonfiction_books_read"
        else rget reading "nonfiction_read_ytd")
    ∧ (rget (buildHistoryRow today year fitness reading dateNight running shows spotify)
        "nonfiction_read_ytd" = ""
      ↔ rget reading "nonfiction_read_ytd" = ""
        ∧ rget reading "nonfiction_books_read" = "")
    ∧ (rget (buildHistoryRow today year fitness reading dateNight running shows spotify)
        "running_miles_ytd"
      = if rget running "running_miles_ytd" = ""
        then rget running "miles_ytd"
        else rget running "running_miles_ytd")
    ∧ (rget (buildHistoryRow today year fitness reading dateNight running shows spotify)
        "running_miles_ytd" = ""
      ↔ rget running "running_miles_ytd" = "" ∧ rget running "miles_ytd" = "")
    ∧ (rget (buildHistoryRow today year fitness reading dateNight running shows spotify)
        "denver_upcoming_show_count"
      = if rget shows "denver_upcoming_show_count" = ""
        then rget shows "denver_events_upcoming_count"
        else rget shows "denver_upcoming_show_count")
    ∧ (rget (buildHistoryRow today year fitness reading dateNight running shows spotify)
        "denver_upcoming_show_count" = ""
      ↔ rget shows "denver_upcoming_show_count" = ""
        ∧ rget shows "denver_events_upcoming_count" = "") := by
  have h1 : rget (buildHistoryRow today year fitness reading dateNight running shows
      spotify) "classes_attended_ytd"
    = pyOr (rget fitness "classes_attended_2026")
        (pyOr (rget fitness "classes_attended_ytd") "") := rfl
  have h2 : rget (buildHistoryRow today year fitness reading dateNight running shows
      spotify) "nonfiction_read_ytd"
    = pyOr (rget reading "nonfiction_read_ytd")
        (pyOr (rget reading "nonfiction_books_read") "") := rfl
  have h3 : rget (buildHistoryRow today year fitness reading dateNight running shows
      spotify) "running_miles_ytd"
    = pyOr (rget running "running_miles_ytd")
        (pyOr (rget running "miles_ytd") "") := rfl
  have h4 : rget (buildHistoryRow today year fitness reading dateNight running shows
      spotify) "denver_upcoming_show_count"
    = pyOr (rget shows "denver_upcoming_show_count")
        (pyOr (rget shows "denver_events_upcoming_count") "") := rfl
  refine ⟨?_, ?_, ?_, ?_, ?_, ?_, ?_, ?_⟩
  · rw [h1, pyOr_chain]
  · rw [h1, pyOr_chain_empty_iff]
  · rw [h2, pyOr_chain]
  · rw [h2, pyOr_chain_empty_iff]
  · rw [h3, pyOr_chain]
  · rw [h3, pyOr_chain_empty_iff]
  · rw [h4, pyOr_chain]
  · rw [h4, pyOr_chain_empty_iff]

theorem runStep_halt_iff (s : StepSpec) :
    ((runStep s).status = StepStatus.failed ∧ (runStep s).requiredFlag = some true)
      ↔ (s.required = true ∧ (runStep s).status = StepStatus.failed) := by
  obtain ⟨req, outc⟩ := s
  cases outc with
  | missing => simp [runStep]
  | ran rc =>
    by_cases hrc : rc = 0
    · simp [runStep, hrc]
    · cases req <;> simp [runStep, hrc]
  | exn => cases req <;> simp [runStep]

theorem haltCount_cons (s : StepSpec) (rest : List StepSpec) :
    haltCount (s :: rest)
      = if s.required = true ∧ (runStep s).status = StepStatus.failed
        then 1 else haltCount rest + 1 := rfl

theorem runSteps_cons (s : StepSpec) (rest : List StepSpec) :
    runSteps (s :: rest)
      = if (runStep s).status = StepStatus.failed
            ∧ (runStep s).requiredFlag = some true
        then ([runStep s], true)
        else (runStep s :: (runSteps rest).1, (runSteps rest).2) := rfl

theorem runSteps_spec (steps : List StepSpec) :
    ((runSteps steps).2 = true
      ↔ ∃ s ∈ steps, s.required = true ∧ (runStep s).status = StepStatus.failed)
    ∧ (runSteps steps).1 = (steps.take (haltCount steps)).map runStep := by
  induction steps with
  | nil => simp [runSteps, haltCount]
  | cons s rest ih =>
    rw [runSteps_cons]
    by_cases hh : (runStep s).status = StepStatus.failed
        ∧ (runStep s).requiredFlag = some true
    · rw [if_pos hh]
      have hs := (runStep_halt_iff s).mp hh
      have hc1 : haltCount (s :: rest) = 1 := by
        rw [haltCount_cons, if_pos ⟨hs.1, hs.2⟩]
      refine ⟨?_, ?_⟩
      · constructor
        · intro _
          exact ⟨s, List.mem_cons_self s rest, hs.1, hs.2⟩
        · intro _
          rfl
      · rw [hc1]
        simp
    · rw [if_neg hh]
      have hns : ¬ (s.required = true ∧ (runStep s).status = StepStatus.failed) :=
        fun hc => hh ((runStep_halt_iff s).mpr hc)
      have hc1 : haltCount (s :: rest) = haltCount rest + 1 := by
        rw [haltCount_cons, if_neg hns]
      refine ⟨?_, ?_⟩
      · show (runSteps rest).2 = true ↔ _
        rw [ih.1]
        constructor
        · rintro ⟨x, hx, hx2⟩
          exact ⟨x, List.mem_cons_of_mem s hx, hx2⟩
        · rintro ⟨x, hx, hx2⟩
          rcases List.mem_cons.mp hx with h1 | h1
          · exact absurd (h1 ▸ hx2) hns
          · exact ⟨x, h1, hx2⟩
      · show runStep s :: (runSteps rest).1 = _
        rw [hc1, List.take_succ_cons, List.map_cons, ih.2]

/-- C4: the step runner halts the remaining sequence exactly at the first
step that is marked `required` and fails — the executed results are the
per-step results of the steps up to and including that point (all steps
when no required step fails) — and the process exit status is non-zero if
and only if such a required failing step exists; optional failures and
skips leave it zero. -/
theorem c4_runner_halt_exit (steps : List StepSpec) :
    (exitCode steps ≠ 0
      ↔ ∃ s ∈ steps, s.required = true ∧ (runStep s).status = StepStatus.failed)
    ∧ (runSteps steps).1 = (steps.take (haltCount steps)).map runStep := by
  refine ⟨?_, (runSteps_spec steps).2⟩
  rw [← (runSteps_spec steps).1]
  unfold exitCode
  by_cases hb : (runSteps steps).2 = true
  · simp [hb]
  · simp [hb]

/-- C9: an absent events input file is read as zero records, the summary of
a run with a feed absent is the summary with that feed present but empty,
and with both feeds absent the Aggregator still produces a summary with
zero upcoming count and empty next-event fields — no failure path exists
(the embedding is total). -/
theorem c9_absent_inputs_zero (year : Int) (feed : Option (List Row)) :
    readCsvRows none = []
    ∧ showsSummary none feed year = showsSummary (some []) feed year
    ∧ showsSummary feed none year = showsSummary feed (some []) year
    ∧ (showsSummary none none year).denver_upcoming_show_count = "0"
    ∧ (showsSummary none none year).next_show_date = ""
    ∧ (showsSummary none none year).next_show_datetime = ""
    ∧ (showsSummary none none year).next_show_title = ""
    ∧ (showsSummary none none year).next_show_venue = ""
    ∧ (showsSummary none none year).next_show_url = "" := by
  have hF : filteredTuples (dedupe (readCsvRows none ++ readCsvRows none)) year
      = [] := rfl
  have hS : sortedTuples (dedupe (readCsvRows none ++ readCsvRows none)) year
      = [] := rfl
  have h0 : toString (0 : Nat) = "0" := rfl
  refine ⟨rfl, rfl, rfl, ?_, ?_, ?_, ?_, ?_, ?_⟩ <;>
    simp only [showsSummary, hF, hS, List.length_nil, List.head?_nil, h0]

theorem specDedupe_nil : specDedupe [] = [] := by
  conv_lhs => rw [specDedupe]

theorem specDedupe_cons (r : Row) (rs : List Row) :
    specDedupe (r :: rs)
      = r :: specDedupe (rs.filter (fun x => dedupeKey x ≠ dedupeKey r)) := by
  conv_lhs => rw [specDedupe]

theorem dedupeAux_eq_specDedupe (rows : List Row) :
    ∀ seen : List String,
      dedupeAux seen rows
        = specDedupe (rows.filter (fun x => ¬ dedupeKey x ∈ seen)) := by
  induction rows with
  | nil =>
    intro seen
    rw [List.filter_nil, specDedupe_nil]
    rfl
  | cons r rs ih =>
    intro seen
    by_cases hm : dedupeKey r ∈ seen
    · have h1 : dedupeAux seen (r :: rs) = dedupeAux seen rs := by
        simp [dedupeAux, hm]
      have h2 : List.filter (fun x => ¬ dedupeKey x ∈ seen) (r :: rs)
          = List.filter (fun x => ¬ dedupeKey x ∈ seen) rs :=
        List.filter_cons_of_neg (by simp [hm])
      rw [h1, h2, ih seen]
    · have h1 : dedupeAux seen (r :: rs)
          = r :: dedupeAux (dedupeKey r :: seen) rs := by
        simp [dedupeAux, hm]
      have h2 : List.filter (fun x => ¬ dedupeKey x ∈ seen) (r :: rs)
          = r :: List.filter (fun x => ¬ dedupeKey x ∈ seen) rs :=
        List.filter_cons_of_pos (by simp [hm])
      rw [h1, h2, ih (dedupeKey r :: seen), specDedupe_cons]
      congr 1
      rw [List.filter_filter]
      congr 1
      apply List.filter_congr
      intro x _
      by_cases h3 : dedupeKey x = dedupeKey r <;> by_cases h4 : dedupeKey x ∈ seen <;>
        simp [h3, h4]

/-- C7: the Deduplicator keeps exactly the first occurrence per DedupeKey,
in input order (first-seen record wins, later records with an already-seen
key are discarded); in particular two records agreeing on a non-empty
(stripped) `event_url` — regardless of their `event_id`s or sources —
collapse to the first one. -/
theorem c7_dedupe_first_occurrence :
    (∀ rows : List Row, dedupe rows = specDedupe rows)
    ∧ (∀ r1 r2 : Row,
        pyStrip (rget r1 "event_url") = pyStrip (rget r2 "event_url") →
        pyStrip (rget r1 "event_url") ≠ "" →
        dedupe [r1, r2] = [r1]) := by
  constructor
  · intro rows
    unfold dedupe
    rw [dedupeAux_eq_specDedupe rows []]
    congr 1
    apply List.filter_eq_self.mpr
    intro x _
    simp
  · intro r1 r2 hurl hne
    have hk : dedupeKey r2 = dedupeKey r1 := by
      unfold dedupeKey
      rw [← hurl, if_pos hne, if_pos hne]
    show dedupeAux [] [r1, r2] = [r1]
    have h1 : ¬ dedupeKey r1 ∈ ([] : List String) := List.not_mem_nil _
    simp [dedupeAux, hk]

/-- Witness for C7: two records from different sources with different
`event_id`s but the same non-empty `event_url` yield exactly one kept
record, the first. -/
theorem c7_dedupe_first_occurrence_witness :
    dedupe
      [[("event_id", "aeg-1"), ("source", "aeg"),
          ("event_url", "https://www.example.com/e/1")],
        [("event_id", "tm-77"), ("source", "ticketmaster"),
          ("event_url", "https://www.example.com/e/1")]]
      = [[("event_id", "aeg-1"), ("source", "aeg"),
          ("event_url", "https://www.example.com/e/1")]] :=
  c7_dedupe_first_occurrence.2
    [("event_id", "aeg-1"), ("source", "aeg"),
      ("event_url", "https://www.example.com/e/1")]
    [("event_id", "tm-77"), ("source", "ticketmaster"),
      ("event_url", "https://www.example.com/e/1")]
    (by decide) (by decide)

theorem head_insertionSort_firstMin {α : Type} (f : α → Int) (l : List α) :
    (List.insertionSort (fun a b => f a ≤ f b) l).head? = firstMinBy f l := by
  induction l with
  | nil => rfl
  | cons a t ih =>
    rw [List.insertionSort]
    cases hs : List.insertionSort (fun a b => f a ≤ f b) t with
    | nil =>
      have ht : t = [] := by
        have hp := List.perm_insertionSort (fun a b => f a ≤ f b) t
        rw [hs] at hp
        exact (List.Perm.nil_eq hp).symm
      subst ht
      rfl
    | cons b u =>
      have hfm : firstMinBy f t = some b := by
        rw [← ih, hs]
        rfl
      rw [List.orderedInsert]
      unfold firstMinBy
      rw [hfm]
      by_cases hab : f a ≤ f b
      · rw [if_pos hab]
        show (a :: b :: u).head? = if f a ≤ f b then some a else some b
        rw [if_pos hab]
        rfl
      · rw [if_neg hab]
        show (b :: List.orderedInsert (fun a b => f a ≤ f b) a u).head?
            = if f a ≤ f b then some a else some b
        rw [if_neg hab]
        rfl

/-- C6: the next-show fields come from the record with the earliest
comparable UTC timestamp in the year-filtered set; the stable sort breaks
timestamp ties by input order, so the selected tuple is exactly the first
element of the filtered list attaining the minimal timestamp
(`firstMinBy`), and each `next_show_*` field reads off that record. -/
theorem c6_next_event_first_min (aeg tm : Option (List Row)) (year : Int) :
    (sortedTuples (dedupe (readCsvRows aeg ++ readCsvRows tm)) year).head?
      = firstMinBy Prod.fst
          (filteredTuples (dedupe (readCsvRows aeg ++ readCsvRows tm)) year)
    ∧ (showsSummary aeg tm year).next_show_title
      = (match firstMinBy Prod.fst
            (filteredTuples (dedupe (readCsvRows aeg ++ readCsvRows tm)) year) with
        | some (_, _, r) => rget r "title"
        | none => "")
    ∧ (showsSummary aeg tm year).next_show_venue
      = (match firstMinBy Prod.fst
            (filteredTuples (dedupe (readCsvRows aeg ++ readCsvRows tm)) year) with
        | some (_, _, r) => rget r "venue_name"
        | none => "")
    ∧ (showsSummary aeg tm year).next_show_url
      = (match firstMinBy Prod.fst
            (filteredTuples (dedupe (readCsvRows aeg ++ readCsvRows tm)) year) with
        | some (_, _, r) => rget r "event_url"
        | none => "")
    ∧ (showsSummary aeg tm year).next_show_date
      = (match firstMinBy Prod.fst
            (filteredTuples (dedupe (readCsvRows aeg ++ readCsvRows tm)) year) with
        | some (_, dtD, _) => isoDateOf dtD.wall
        | none => "")
    ∧ (showsSummary aeg tm year).next_show_datetime
      = (match firstMinBy Prod.fst
            (filteredTuples (dedupe (readCsvRows aeg ++ readCsvRows tm)) year) with
        | some (_, dtD, _) => isoOf dtD
        | none => "") := by
  have hhead : (sortedTuples (dedupe (readCsvRows aeg ++ readCsvRows tm)) year).head?
      = firstMinBy Prod.fst
          (filteredTuples (dedupe (readCsvRows aeg ++ readCsvRows tm)) year) :=
    head_insertionSort_firstMin Prod.fst _
  refine ⟨hhead, ?_, ?_, ?_, ?_, ?_⟩ <;>
    simp only [showsSummary, hhead]

set_option maxHeartbeats 8000000 in
theorem yoeBounds (doe : Int) (h0 : 0 ≤ doe) (h1 : doe < 146097) (k : Int)
    (hk : k = (doe - doe / 1460 + doe / 36524 - doe / 146096) / 365) :
    0 ≤ k ∧ k ≤ 399 ∧ 0 ≤ doe - (365 * k + k / 4 - k / 100)
      ∧ doe - (365 * k + k / 4 - k / 100) ≤ 365 := by
  have hb0 : 0 ≤ k := by omega
  have hb1 : k ≤ 399 := by omega
  refine ⟨hb0, hb1, ?_⟩
  interval_cases k <;> omega

set_option maxHeartbeats 1600000 in
theorem daysFromCivil_reassemble (era doe yoe doy mp d m y : Int)
    (h0 : 0 ≤ doe) (h1 : doe < 146097)
    (hyoe0 : 0 ≤ yoe) (hyoe1 : yoe ≤ 399)
    (hdoy : doy = doe - (365 * yoe + yoe / 4 - yoe / 100))
    (hdoy0 : 0 ≤ doy) (hdoy1 : doy ≤ 365)
    (hmp : mp = (5 * doy + 2) / 153)
    (hd : d = doy - (153 * mp + 2) / 5 + 1)
    (hm : m = if mp < 10 then mp + 3 else mp - 9)
    (hy : y = yoe + era * 400) :
    daysFromCivil (if m ≤ 2 then y + 1 else y) m d
      = era * 146097 + doe - 719468 := by
  have hmp0 : 0 ≤ mp := by omega
  have hmp11 : mp ≤ 11 := by omega
  by_cases hmp10 : mp < 10
  · have hm3 : m = mp + 3 := by rw [hm, if_pos hmp10]
    have hnle : ¬ (m ≤ 2) := by omega
    have hmod : (m + 9) % 12 = mp := by omega
    simp only [daysFromCivil, if_neg hnle, hmod]
    have hera : y / 400 = era := by omega
    have hyoe400 : y - y / 400 * 400 = yoe := by omega
    rw [hyoe400]
    omega
  · have hm3 : m = mp - 9 := by rw [hm, if_neg hmp10]
    have hle : m ≤ 2 := by omega
    have hmod : (m + 9) % 12 = mp := by omega
    simp only [daysFromCivil, if_pos hle, hmod]
    rw [show y + 1 - 1 = y from by omega]
    have hera : y / 400 = era := by omega
    have hyoe400 : y - y / 400 * 400 = yoe := by omega
    rw [hyoe400]
    omega

set_option maxHeartbeats 1600000 in
theorem daysFromCivil_civilFromDays (z : Int) :
    daysFromCivil (civilFromDays z).1 (civilFromDays z).2.1 (civilFromDays z).2.2
      = z := by
  simp only [civilFromDays]
  set doe := z + 719468 - (z + 719468) / 146097 * 146097 with hdoe
  set yoe := (doe - doe / 1460 + doe / 36524 - doe / 146096) / 365 with hyoe
  set doy := doe - (365 * yoe + yoe / 4 - yoe / 100) with hdoy
  set mp := (5 * doy + 2) / 153 with hmp
  set d := doy - (153 * mp + 2) / 5 + 1 with hd
  set m := if mp < 10 then mp + 3 else mp - 9 with hm
  set y := yoe + (z + 719468) / 146097 * 400 with hy
  have hb := yoeBounds doe (by omega) (by omega) yoe hyoe
  rw [daysFromCivil_reassemble ((z + 719468) / 146097) doe yoe doy mp d m y
    (by omega) (by omega) hb.1 hb.2.1 hdoy hb.2.2.1 hb.2.2.2 hmp hd hm hy]
  omega

theorem naiveToSecs_secsToNaive (t : Int) : naiveToSecs (secsToNaive t) = t := by
  unfold secsToNaive naiveToSecs
  dsimp only
  rw [daysFromCivil_civilFromDays]
  omega

/-- C5: a parsed timestamp with no UTC offset is interpreted as already
being America/Denver wall time (the wall clock is kept, Denver's offset for
that wall time is attached — it is not read as UTC); one with an explicit
offset is converted to Denver preserving the absolute instant, before any
year comparison.  In particular `"2026-01-09T03:00:00Z"` parses to an aware
UTC datetime and resolves to Denver wall time 2026-01-08 20:00 (UTC−7), one
calendar day earlier than its UTC date. -/
theorem c5_timezone_policy (w : NaiveDT) (off : Int) :
    asAwareDenver ⟨w, none⟩ = ⟨w, some (denverOffWall w)⟩
    ∧ (asAwareDenver ⟨w, some off⟩).utcOffsetMinutes
        = some (denverOffUtc (naiveToSecs w - 60 * off))
    ∧ instantOf (asAwareDenver ⟨w, some off⟩) = naiveToSecs w - 60 * off
    ∧ parseDt "2026-01-09T03:00:00Z" = some ⟨⟨2026, 1, 9, 3, 0, 0⟩, some 0⟩
    ∧ asAwareDenver ⟨⟨2026, 1, 9, 3, 0, 0⟩, some 0⟩
        = ⟨⟨2026, 1, 8, 20, 0, 0⟩, some (-420)⟩ := by
  refine ⟨rfl, rfl, ?_, by decide, by decide⟩
  show instantOf (astimezoneDenver w off) = naiveToSecs w - 60 * off
  unfold astimezoneDenver instantOf
  dsimp only
  rw [naiveToSecs_secsToNaive]
  simp only [Option.getD_some]
  omega

theorem distinctAux_cons_mem {α : Type} [DecidableEq α] (seen : List α) (a : α)
    (t : List α) (ha : a ∈ seen) :
    distinctAux seen (a :: t) = distinctAux seen t := by
  simp [distinctAux, ha]

theorem distinctAux_cons_not_mem {α : Type} [DecidableEq α] (seen : List α) (a : α)
    (t : List α) (ha : ¬ a ∈ seen) :
    distinctAux seen (a :: t) = a :: distinctAux (a :: seen) t := by
  simp [distinctAux, ha]

theorem mem_distinctAux {α : Type} [DecidableEq α] (l : List α) :
    ∀ (seen : List α) (x : α), x ∈ distinctAux seen l ↔ (x ∈ l ∧ ¬ x ∈ seen) := by
  induction l with
  | nil =>
    intro seen x
    simp [distinctAux]
  | cons a t ih =>
    intro seen x
    by_cases ha : a ∈ seen
    · rw [distinctAux_cons_mem seen a t ha, ih seen x]
      constructor
      · exact fun h => ⟨List.mem_cons_of_mem a h.1, h.2⟩
      · rintro ⟨h1, h2⟩
        rcases List.mem_cons.mp h1 with h3 | h3
        · exact absurd (h3 ▸ ha) h2
        · exact ⟨h3, h2⟩
    · rw [distinctAux_cons_not_mem seen a t ha]
      constructor
      · intro hx
        rcases List.mem_cons.mp hx with h3 | h3
        · subst h3
          exact ⟨List.mem_cons_self _ _, ha⟩
        · have h4 := (ih (a :: seen) x).mp h3
          exact ⟨List.mem_cons_of_mem a h4.1,
            fun hc => h4.2 (List.mem_cons_of_mem a hc)⟩
      · rintro ⟨h1, h2⟩
        by_cases hxa : x = a
        · exact hxa ▸ List.mem_cons_self a _
        · rcases List.mem_cons.mp h1 with h3 | h3
          · exact absurd h3 hxa
          · refine List.mem_cons_of_mem a ((ih (a :: seen) x).mpr ⟨h3, ?_⟩)
            intro hc
            rcases List.mem_cons.mp hc with h4 | h4
            · exact hxa h4
            · exact h2 h4

theorem nodup_distinctAux {α : Type} [DecidableEq α] (l : List α) :
    ∀ seen : List α, (distinctAux seen l).Nodup := by
  induction l with
  | nil => intro seen; exact List.nodup_nil
  | cons a t ih =>
    intro seen
    by_cases ha : a ∈ seen
    · rw [distinctAux_cons_mem seen a t ha]
      exact ih seen
    · rw [distinctAux_cons_not_mem seen a t ha]
      refine List.nodup_cons.mpr ⟨?_, ih (a :: seen)⟩
      intro hc
      exact ((mem_distinctAux t (a :: seen) a).mp hc).2 (List.mem_cons_self a seen)

theorem charListLt_asymm (x : List Char) :
    ∀ y : List Char, charListLt x y = true → charListLt y x = false := by
  induction x with
  | nil =>
    intro y _
    cases y with
    | nil => rfl
    | cons b bs => rfl
  | cons a as ih =>
    intro y hxy
    cases y with
    | nil => cases hxy
    | cons b bs =>
      simp only [charListLt, Bool.or_eq_true, Bool.and_eq_true,
        decide_eq_true_eq] at hxy
      simp only [charListLt, Bool.or_eq_false_iff, Bool.and_eq_false_iff,
        decide_eq_false_iff_not]
      rcases hxy with h | ⟨h1, h2⟩
      · exact ⟨by omega, Or.inl (by omega)⟩
      · exact ⟨by omega, Or.inr (ih bs h2)⟩

theorem charListLt_connex (x : List Char) :
    ∀ y : List Char, charListLt x y = false → charListLt y x = false → x = y := by
  induction x with
  | nil =>
    intro y h1 _
    cases y with
    | nil => rfl
    | cons b bs => cases h1
  | cons a as ih =>
    intro y h1 h2
    cases y with
    | nil => cases h2
    | cons b bs =>
      simp only [charListLt, Bool.or_eq_true, Bool.and_eq_true,
        decide_eq_true_eq, Bool.or_eq_false_iff, Bool.and_eq_false_iff] at h1 h2
      have hab : a.toNat = b.toNat := by
        rcases h1 with ⟨h1a, _⟩
        rcases h2 with ⟨h2a, _⟩
        simp only [decide_eq_false_iff_not] at h1a h2a
        omega
      have htails : charListLt as bs = false := by
        rcases h1 with ⟨_, h1b | h1b⟩
        · simp only [decide_eq_false_iff_not] at h1b
          exact absurd hab h1b
        · exact h1b
      have htails2 : charListLt bs as = false := by
        rcases h2 with ⟨_, h2b | h2b⟩
        · simp only [decide_eq_false_iff_not] at h2b
          exact absurd hab.symm h2b
        · exact h2b
      have hc : (a : Char) = b := Char.ext (UInt32.ext hab)
      rw [hc, ih bs htails htails2]

theorem charListLt_trans (x : List Char) :
    ∀ y z : List Char, charListLt x y = true → charListLt y z = true →
      charListLt x z = true := by
  induction x with
  | nil =>
    intro y z hxy hyz
    cases z with
    | nil =>
      cases y with
      | nil => cases hxy
      | cons b bs => cases hyz
    | cons c cs => rfl
  | cons a as ih =>
    intro y z hxy hyz
    cases y with
    | nil => cases hxy
    | cons b bs =>
      cases z with
      | nil => cases hyz
      | cons c cs =>
        simp only [charListLt, Bool.or_eq_true, Bool.and_eq_true,
          decide_eq_true_eq] at hxy hyz ⊢
        rcases hxy with h1 | ⟨h1, h1t⟩ <;> rcases hyz with h2 | ⟨h2, h2t⟩
        · exact Or.inl (by omega)
        · exact Or.inl (by omega)
        · exact Or.inl (by omega)
        · exact Or.inr ⟨by omega, ih bs cs h1t h2t⟩

instance : IsTotal String (fun a b => strLe a b = true) := by
  constructor
  intro a b
  by_cases h : charListLt b.data a.data = true
  · right
    have := charListLt_asymm b.data a.data h
    simp [strLe, this]
  · left
    simp only [Bool.not_eq_true] at h
    simp [strLe, h]

instance : IsTrans String (fun a b => strLe a b = true) := by
  constructor
  intro a b c hab hbc
  simp only [strLe, Bool.not_eq_true'] at hab hbc ⊢
  by_cases hca : charListLt c.data a.data = true
  · exfalso
    by_cases hbc2 : charListLt b.data c.data = true
    · by_cases hab2 : charListLt a.data b.data = true
      · have h1 := charListLt_trans a.data b.data c.data hab2 hbc2
        rw [charListLt_asymm a.data c.data h1] at hca
        cases hca
      · simp only [Bool.not_eq_true] at hab2
        have h1 := charListLt_connex a.data b.data hab2 hab
        rw [h1] at hca
        rw [hca] at hbc
        cases hbc
    · simp only [Bool.not_eq_true] at hbc2
      have h1 := charListLt_connex b.data c.data hbc2 hbc
      rw [← h1] at hca
      rw [hca] at hab
      cases hab
  · simpa using hca

/-- The AEG-side record of the C1 counterexample. -/
def c1RowAeg : Row := [("source", "aeg"), ("event_url", "https://x/e1"),
  ("title", "Band"), ("venue_name", "Gothic"),
  ("start_datetime", "2026-01-09T20:00:00-07:00")]

/-- The Ticketmaster-side record of the C1 counterexample: the same
`event_url` as the AEG record, so the Deduplicator removes it — and with it
the only carrier of the `ticketmaster` source tag. -/
def c1RowTm : Row := [("source", "ticketmaster"), ("event_url", "https://x/e1"),
  ("title", "Band"), ("venue_name", "Gothic"),
  ("start_datetime", "2026-01-10T03:00:00Z")]

/-- Counterexample to C1 as stated: `sources_present` is computed (line
161) from `rows` *after* it is rebound to the deduplicated list (line 126),
so it is not the sorted, comma-joined distinct non-empty source set of the
pre-dedupe concatenation — here the summary reports `"aeg"` while the
pre-dedupe input carries both `"aeg"` and `"ticketmaster"`. -/
theorem c1_sources_pre_dedupe_counterexample :
    (showsSummary (some [c1RowAeg]) (some [c1RowTm]) 2026).sources_present
      ≠ sourcesPresentOf (readCsvRows (some [c1RowAeg])
          ++ readCsvRows (some [c1RowTm])) := by
  decide

/-- C1 (amended): `sources_present` is the sorted, comma-joined set of
distinct non-empty stripped `source` tags across the *deduplicated* (but
still pre-year-filter) record set — not the pre-dedupe concatenation. -/
theorem c1_sources_present_amended (aeg tm : Option (List Row)) (year : Int) :
    ∃ tags : List String,
      (showsSummary aeg tm year).sources_present = String.intercalate "," tags
      ∧ List.Sorted (fun a b : String => strLe a b = true) tags
      ∧ tags.Nodup
      ∧ ∀ s : String, s ∈ tags
          ↔ (s ≠ "" ∧ ∃ r ∈ dedupe (readCsvRows aeg ++ readCsvRows tm),
              pyStrip (rget r "source") = s) := by
  refine ⟨sortStrings (distinctList
      ((dedupe (readCsvRows aeg ++ readCsvRows tm)).filterMap (fun r =>
        let s := pyStrip (rget r "source")
        if s = "" then none else some s))), rfl, ?_, ?_, ?_⟩
  · exact List.sorted_insertionSort _ _
  · unfold sortStrings distinctList
    exact ((List.perm_insertionSort _ _).nodup_iff).mpr (nodup_distinctAux _ [])
  · intro s
    unfold sortStrings distinctList
    rw [List.Perm.mem_iff (List.perm_insertionSort _ _), mem_distinctAux,
      List.mem_filterMap]
    constructor
    · rintro ⟨⟨r, hr, hsome⟩, _⟩
      rw [show ((let t := pyStrip (rget r "source")
          if t = "" then none else some t) : Option String)
            = (if pyStrip (rget r "source") = "" then none
              else some (pyStrip (rget r "source"))) from rfl] at hsome
      by_cases hs : pyStrip (rget r "source") = ""
      · rw [if_pos hs] at hsome
        cases hsome
      · rw [if_neg hs] at hsome
        obtain rfl := Option.some.inj hsome
        exact ⟨hs, r, hr, rfl⟩
    · rintro ⟨hne, r, hr, hsr⟩
      refine ⟨⟨r, hr, ?_⟩, List.not_mem_nil s⟩
      rw [show ((let t := pyStrip (rget r "source")
          if t = "" then none else some t) : Option String)
            = (if pyStrip (rget r "source") = "" then none
              else some (pyStrip (rget r "source"))) from rfl]
      rw [if_neg (by rw [hsr]; exact hne), hsr]
